import Mathlib

/-!
Shallow embedding of the gitlab-roulette core (src/main.rs): the data model,
the three issue-selection strategies, the balancing algorithm, and the
assignment-execution loop, together with proofs of the specified properties.
-/

namespace GitlabRoulette

/-- Embeds struct GitlabProjectMember (main.rs lines 64-69). -/
structure GitlabProjectMember where
  id : Int
  username : String
  name : String
deriving DecidableEq, Inhabited

/-- Embeds struct GitlabMilestone (main.rs lines 55-62). -/
structure GitlabMilestone where
  id : Int
  project_id : Int
  title : String
  description : String
  state : String
deriving DecidableEq, Inhabited

/-- Embeds struct GitlabIssue (main.rs lines 42-53). -/
structure GitlabIssue where
  id : Int
  iid : Int
  project_id : Int
  title : String
  description : String
  state : String
  type : String
  assignees : List GitlabProjectMember
  milestone : Option GitlabMilestone
deriving DecidableEq, Inhabited

/-- Embeds the PartialEq impl for GitlabMilestone (main.rs lines 102-106):
equality is comparison of the id fields only. -/
def milestoneEq (a b : GitlabMilestone) : Bool :=
  a.id == b.id

/-- Embeds Vec::contains on milestones, which Rust resolves through the
PartialEq impl above (used at main.rs lines 260 and 279). -/
def milestonesContains (l : List GitlabMilestone) (m : GitlabMilestone) : Bool :=
  l.any (fun x => milestoneEq x m)

/-- Embeds the milestone-deduplication loop (main.rs lines 257-264): walk the
issues in order, pushing each issue's milestone unless an identity-equal one
was already collected. -/
def collectMilestones (issues : List GitlabIssue) : List GitlabMilestone :=
  issues.foldl
    (fun acc issue =>
      match issue.milestone with
      | some ms => if milestonesContains acc ms then acc else acc ++ [ms]
      | none => acc)
    []

/-- Embeds the Milestone selection strategy filter (main.rs lines 275-281):
keep the issues whose milestone is present and contained (by identity) in the
picked milestones. -/
def milestoneSelect (issues : List GitlabIssue) (picked : List GitlabMilestone) :
    List GitlabIssue :=
  issues.filter
    (fun issue =>
      match issue.milestone with
      | some ms => milestonesContains picked ms
      | none => false)

/-- Embeds the Range selection strategy filter (main.rs lines 289-292):
keep the issues whose id lies between the two entered boundaries, both ends
inclusive. -/
def rangeSelect (issues : List GitlabIssue) (rangeStart rangeEnd : Int) :
    List GitlabIssue :=
  issues.filter (fun issue => decide (issue.id ≥ rangeStart) && decide (issue.id ≤ rangeEnd))

/-! ## Balancer (main.rs lines 314-332)

The balancer divides the selected issue count by the selected member count
(a Rust division that panics when the member count is zero), builds the base
allocation vector with flat_map, appends the remainder draws produced by
gen_range, shuffles, and then pairs member indices with issues by position.
Randomness is made explicit: the remainder draws and the shuffled vector are
parameters, constrained in the theorems to the outcomes the rand crate can
produce (draws below the member count, shuffles that permute the vector). -/

/-- Embeds main.rs lines 316-323: the assignment vector before the shuffle,
base allocation (each member index repeated issue_per_member times, built by
flat_map over member indices) followed by the remainder draws. -/
def balancerPre (issues : List GitlabIssue) (members : List GitlabProjectMember)
    (draws : List Nat) : List Nat :=
  (List.range members.length).flatMap
    (fun i => List.replicate (issues.length / members.length) i) ++ draws

/-- The outcomes the remainder-draw loop (main.rs lines 321-323) can produce:
one gen_range(0..members.len()) result per remainder slot. -/
def ValidDraws (m n : Nat) (draws : List Nat) : Prop :=
  draws.length = n % m ∧ ∀ d ∈ draws, d < m

instance (m n : Nat) (draws : List Nat) : Decidable (ValidDraws m n draws) := by
  unfold ValidDraws; infer_instance

/-- Embeds the preview loop (main.rs lines 327-332): for each selected issue in
order, look up selected_members[assignements[i]] and emit the (issue, member)
pair; an out-of-bounds index is a Rust panic, embedded as none. -/
def previewPairs : List GitlabIssue → List GitlabProjectMember → List Nat →
    Option (List (GitlabIssue × GitlabProjectMember))
  | [], _, _ => some []
  | _ :: _, _, [] => none
  | issue :: rest, members, a :: asgRest =>
    match members[a]? with
    | none => none
    | some mb =>
      match previewPairs rest members asgRest with
      | none => none
      | some ps => some ((issue, mb) :: ps)

/-- Possible outcomes of the balancing step: the divide-by-zero panic of
main.rs line 316 when no member is selected, an out-of-bounds indexing panic
in the pairing loop, or the computed list of (issue, member) pairs. -/
inductive BalanceOutcome where
  | divByZeroPanic
  | indexPanic
  | ok (pairs : List (GitlabIssue × GitlabProjectMember))
deriving DecidableEq

/-- The balancing step (main.rs lines 316-332) given the already-shuffled
assignment vector: selected_issues.len() / selected_members.len() panics when
the member list is empty; otherwise the preview loop pairs each issue with the
member at the vector's index. -/
def balancerAssign (issues : List GitlabIssue) (members : List GitlabProjectMember)
    (shuffled : List Nat) : BalanceOutcome :=
  if members.length = 0 then .divByZeroPanic
  else
    match previewPairs issues members shuffled with
    | none => .indexPanic
    | some ps => .ok ps

/-! ## Concrete random source

For the determinism claim the random generator is embedded explicitly as a
stream of raw values; gen_range reduces a raw value modulo the bound, and the
shuffle is the rand crate's Fisher-Yates walk (swap index i with a drawn index
in 0..=i, for i from len-1 down to 1). -/

/-- Draw one raw value from the random stream. -/
def nextRand : List Nat → Nat × List Nat
  | [] => (0, [])
  | x :: rest => (x, rest)

/-- Embeds the remainder-draw loop (main.rs lines 321-323): one
gen_range(0..m) per remainder slot, threading the random stream. -/
def drawRest (m : Nat) : Nat → List Nat → List Nat × List Nat
  | 0, rng => ([], rng)
  | r + 1, rng =>
    let (x, rng1) := nextRand rng
    let (rest, rng2) := drawRest m r rng1
    ((x % m) :: rest, rng2)

/-- Swap two positions of a list, identity when either is out of bounds. -/
def listSwap (l : List Nat) (i j : Nat) : List Nat :=
  match l[i]?, l[j]? with
  | some x, some y => (l.set i y).set j x
  | _, _ => l

/-- The Fisher-Yates loop body of SliceRandom::shuffle: at step i+1 swap
position i+1 with a drawn position in 0..=i+1, then continue downward. -/
def fyAux : Nat → List Nat → List Nat → List Nat × List Nat
  | 0, l, rng => (l, rng)
  | i + 1, l, rng =>
    let (x, rng1) := nextRand rng
    fyAux i (listSwap l (i + 1) (x % (i + 2))) rng1

/-- Embeds assignements.shuffle(&mut rng) (main.rs line 324). -/
def shuffleList (l : List Nat) (rng : List Nat) : List Nat × List Nat :=
  match l.length with
  | 0 => (l, rng)
  | len + 1 => fyAux len l rng

/-- The whole balancing step (main.rs lines 314-332) run against an explicit
random stream: division (panicking on zero members), base vector, remainder
draws, shuffle, pairing. -/
def balancerRun (issues : List GitlabIssue) (members : List GitlabProjectMember)
    (rng : List Nat) : BalanceOutcome :=
  if members.length = 0 then .divByZeroPanic
  else
    let (draws, rng1) := drawRest members.length (issues.length % members.length) rng
    let (shuffled, _) := shuffleList (balancerPre issues members draws) rng1
    match previewPairs issues members shuffled with
    | none => .indexPanic
    | some ps => .ok ps

/-! ## Execution loop (main.rs lines 343-363)

The write-back loop recomputes selected_members[assignements[i]] for each
issue and calls the external assign API; a non-OK status aborts the loop
immediately, reporting the issue that failed. The external call is abstracted
as a boolean-valued collaborator. -/

/-- Outcome of the execution loop: an indexing panic, an abort at the first
failed assign call (recording which issue failed), or overall success. -/
inductive RunOutcome where
  | indexPanic
  | failed (issue : GitlabIssue)
  | succeeded
deriving DecidableEq

/-- Trace of the execution loop: the assign calls attempted, in order, and
the outcome. On failure the last recorded call is the failed one; the calls
before it were applied and are not rolled back. -/
structure ExecTrace where
  calls : List (GitlabIssue × GitlabProjectMember)
  outcome : RunOutcome
deriving DecidableEq

/-- Embeds the execution loop (main.rs lines 343-363): pair each issue with
selected_members[assignements[i]], call the assign API, and stop at the first
failure, reporting that issue. -/
def executionRun (execute : GitlabIssue → GitlabProjectMember → Bool) :
    List GitlabIssue → List GitlabProjectMember → List Nat → ExecTrace
  | [], _, _ => ⟨[], .succeeded⟩
  | _ :: _, _, [] => ⟨[], .indexPanic⟩
  | issue :: rest, members, a :: asgRest =>
    match members[a]? with
    | none => ⟨[], .indexPanic⟩
    | some mb =>
      if execute issue mb then
        let t := executionRun execute rest members asgRest
        ⟨(issue, mb) :: t.calls, t.outcome⟩
      else ⟨[(issue, mb)], .failed issue⟩

/-! ## The balancing algorithm as the specification words it

A second, independently written pair of definitions following the spec text:
a vector containing each member index repeated q times, with the r remainder
draws appended, shuffled, and then vector[i] paired with issues[i]. The
refinement theorem compares these with the source embedding above. -/

/-- Spec wording: the assignment vector is each member index repeated q times
(base allocation) with the r randomly drawn member indices appended. -/
def specAssignmentVector (n m : Nat) (draws : List Nat) : List Nat :=
  (List.flatten ((List.range m).map (fun i => List.replicate (n / m) i))) ++ draws

/-- Spec wording: pair vector[i] with issues[i] for each i. -/
def specPairing (issues : List GitlabIssue) (members : List GitlabProjectMember)
    (vec : List Nat) : List (GitlabIssue × GitlabProjectMember) :=
  List.zipWith (fun issue j => (issue, members.getD j default)) issues vec

/-! ## Concrete fixtures

Small concrete entities used to instantiate the theorems. -/

/-- A milestone with the given id and title. -/
def exMilestone (k : Int) (t : String) : GitlabMilestone :=
  ⟨k, 1, t, "", "active"⟩

/-- An issue with the given id (also used as iid) and milestone. -/
def exIssue (k : Int) (ms : Option GitlabMilestone) : GitlabIssue :=
  ⟨k, k, 1, "", "", "opened", "issue", [], ms⟩

/-- A member with the given id. -/
def exMember (k : Int) : GitlabProjectMember :=
  ⟨k, "", ""⟩

/-- Five issues with ids 1..5. -/
def cexIssues : List GitlabIssue :=
  [exIssue 1 none, exIssue 2 none, exIssue 3 none, exIssue 4 none, exIssue 5 none]

/-- Three members with ids 1..3. -/
def cexMembers : List GitlabProjectMember :=
  [exMember 1, exMember 2, exMember 3]

/-- A possible outcome of the two remainder draws (5 issues, 3 members):
gen_range(0..3) returns 0 both times. -/
def cexDraws : List Nat := [0, 0]

/-- A possible shuffle outcome (the identity permutation) of the assignment
vector built from cexDraws. -/
def cexVec : List Nat := [0, 1, 2, 0, 0]

/-- An external assign collaborator that fails exactly on the issue with
id 3 (the third previewed pair under cexVec). -/
def cexExec (issue : GitlabIssue) (_ : GitlabProjectMember) : Bool :=
  issue.id != 3

/-- A remainder-draw outcome with two distinct drawn member indices. -/
def wDraws : List Nat := [0, 1]

/-- The identity-shuffle outcome of the assignment vector built from wDraws
for 5 issues and 3 members. -/
def wVec : List Nat := [0, 1, 2, 0, 1]

/-- Two milestones that share an id but differ in title. -/
def wmA : GitlabMilestone := exMilestone 7 "alpha"

/-- Two milestones that share an id but differ in title. -/
def wmB : GitlabMilestone := exMilestone 7 "beta"

/-- An issue carrying milestone wmA. -/
def wIssueM : GitlabIssue := exIssue 10 (some wmA)

/-- An issue carrying no milestone. -/
def wIssueN : GitlabIssue := exIssue 11 none

end GitlabRoulette

namespace GitlabRoulette

/-! ## Helper lemmas -/

lemma base_count (m q j : Nat) :
    List.count j ((List.range m).flatMap (fun i => List.replicate q i)) =
      if j < m then q else 0 := by
  induction m with
  | zero => simp
  | succ m ih =>
    rw [List.range_succ, List.flatMap_append, List.count_append, ih]
    simp only [List.flatMap_cons, List.flatMap_nil, List.append_nil, List.count_replicate]
    rcases Nat.lt_trichotomy j m with h | h | h
    · have hne : (m == j) = false := by simp; omega
      simp [hne, h, show j < m + 1 from by omega]
    · subst h
      simp
    · have hne : (m == j) = false := by simp; omega
      simp [hne, show ¬ j < m from by omega, show ¬ j < m + 1 from by omega]

lemma base_length (m q : Nat) :
    ((List.range m).flatMap (fun i => List.replicate q i)).length = m * q := by
  induction m with
  | zero => simp
  | succ m ih =>
    rw [List.range_succ, List.flatMap_append]
    simp [ih]
    ring

lemma base_mem (m q : Nat) :
    ∀ x ∈ (List.range m).flatMap (fun i => List.replicate q i), x < m := by
  intro x hx
  simp only [List.mem_flatMap, List.mem_range, List.mem_replicate] at hx
  obtain ⟨a, ha, _, rfl⟩ := hx
  exact ha

lemma balancerPre_length (issues : List GitlabIssue) (members : List GitlabProjectMember)
    (draws : List Nat)
    (hd : ValidDraws members.length issues.length draws) :
    (balancerPre issues members draws).length = issues.length := by
  rw [balancerPre, List.length_append, base_length, hd.1]
  exact Nat.div_add_mod issues.length members.length

lemma balancerPre_mem (issues : List GitlabIssue) (members : List GitlabProjectMember)
    (draws : List Nat) (hd : ValidDraws members.length issues.length draws) :
    ∀ x ∈ balancerPre issues members draws, x < members.length := by
  intro x hx
  rw [balancerPre, List.mem_append] at hx
  rcases hx with hx | hx
  · exact base_mem _ _ x hx
  · exact hd.2 x hx

lemma previewPairs_eq_specPairing : ∀ (issues : List GitlabIssue)
    (members : List GitlabProjectMember) (asg : List Nat),
    issues.length ≤ asg.length → (∀ a ∈ asg, a < members.length) →
    previewPairs issues members asg = some (specPairing issues members asg)
  | [], members, asg, _, _ => by simp [previewPairs, specPairing]
  | _ :: _, _, [], h, _ => by simp at h
  | issue :: rest, members, a :: tl, h, hel => by
    have ha : a < members.length := hel a (List.mem_cons_self a tl)
    have htl : ∀ x ∈ tl, x < members.length := fun x hx => hel x (List.mem_cons_of_mem a hx)
    have hlen : rest.length ≤ tl.length := by
      simpa using Nat.le_of_succ_le_succ (by simpa using h)
    have hrec := previewPairs_eq_specPairing rest members tl hlen htl
    have hget : members[a]? = some (members.getD a default) := by
      rw [List.getD_eq_getElem?_getD, List.getElem?_eq_getElem ha]
      rfl
    simp only [previewPairs, hget, hrec, specPairing, List.zipWith_cons_cons]

lemma specPairing_map_fst : ∀ (issues : List GitlabIssue)
    (members : List GitlabProjectMember) (asg : List Nat),
    issues.length ≤ asg.length →
    (specPairing issues members asg).map Prod.fst = issues
  | [], _, _, _ => by simp [specPairing]
  | _ :: _, _, [], h => by simp at h
  | issue :: rest, members, a :: tl, h => by
    have hlen : rest.length ≤ tl.length := by
      simpa using Nat.le_of_succ_le_succ (by simpa using h)
    have ih := specPairing_map_fst rest members tl hlen
    simp [specPairing] at ih ⊢
    exact ih

lemma specPairing_length (issues : List GitlabIssue)
    (members : List GitlabProjectMember) (asg : List Nat)
    (h : issues.length ≤ asg.length) :
    (specPairing issues members asg).length = issues.length := by
  simp [specPairing, List.length_zipWith]
  omega

lemma specPairing_map_snd : ∀ (issues : List GitlabIssue)
    (members : List GitlabProjectMember) (asg : List Nat),
    issues.length = asg.length →
    (specPairing issues members asg).map Prod.snd =
      asg.map (fun j => members.getD j default)
  | [], _, asg, h => by
    cases asg with
    | nil => simp [specPairing]
    | cons a tl => simp at h
  | _ :: _, _, [], h => by simp at h
  | issue :: rest, members, a :: tl, h => by
    have hlen : rest.length = tl.length := by simpa using h
    have ih := specPairing_map_snd rest members tl hlen
    simp [specPairing] at ih ⊢
    exact ih

lemma shuffled_count (issues : List GitlabIssue) (members : List GitlabProjectMember)
    (draws shuffled : List Nat)
    (hp : shuffled.Perm (balancerPre issues members draws)) (j : Nat) :
    shuffled.count j =
      (if j < members.length then issues.length / members.length else 0) +
        draws.count j := by
  rw [hp.count_eq j, balancerPre, List.count_append, base_count]

lemma extra_members_count (m : Nat) (draws : List Nat) (hnd : draws.Nodup)
    (hsub : ∀ d ∈ draws, d < m) :
    ((List.range m).filter (fun j => decide (j ∈ draws))).length = draws.length := by
  have h1 : ((List.range m).filter (fun j => decide (j ∈ draws))).Nodup :=
    (List.nodup_range m).filter _
  have hperm : ((List.range m).filter (fun j => decide (j ∈ draws))).Perm draws := by
    rw [List.perm_ext_iff_of_nodup h1 hnd]
    intro a
    simp only [List.mem_filter, List.mem_range, decide_eq_true_eq]
    constructor
    · exact fun h => h.2
    · exact fun h => ⟨hsub a h, h⟩
  exact hperm.length_eq

lemma balancer_ok (issues : List GitlabIssue) (members : List GitlabProjectMember)
    (draws shuffled : List Nat)
    (hm : 1 ≤ members.length)
    (hd : ValidDraws members.length issues.length draws)
    (hp : shuffled.Perm (balancerPre issues members draws)) :
    shuffled.length = issues.length ∧
    (∀ a ∈ shuffled, a < members.length) ∧
    balancerAssign issues members shuffled = .ok (specPairing issues members shuffled) := by
  have hlen : shuffled.length = issues.length := by
    rw [hp.length_eq]
    exact balancerPre_length issues members draws hd
  have hmem : ∀ a ∈ shuffled, a < members.length := fun a ha =>
    balancerPre_mem issues members draws hd a (hp.mem_iff.mp ha)
  refine ⟨hlen, hmem, ?_⟩
  rw [balancerAssign, if_neg (by omega),
    previewPairs_eq_specPairing issues members shuffled (le_of_eq hlen.symm) hmem]

lemma executionRun_success : ∀ (ex : GitlabIssue → GitlabProjectMember → Bool)
    (issues : List GitlabIssue) (members : List GitlabProjectMember) (asg : List Nat),
    issues.length ≤ asg.length → (∀ a ∈ asg, a < members.length) →
    (∀ p ∈ specPairing issues members asg, ex p.1 p.2 = true) →
    executionRun ex issues members asg = ⟨specPairing issues members asg, .succeeded⟩
  | _, [], members, asg, _, _, _ => by simp [executionRun, specPairing]
  | _, _ :: _, _, [], h, _, _ => by simp at h
  | ex, issue :: rest, members, a :: tl, h, hel, hall => by
    have ha : a < members.length := hel a (List.mem_cons_self a tl)
    have htl : ∀ x ∈ tl, x < members.length := fun x hx => hel x (List.mem_cons_of_mem a hx)
    have hlen : rest.length ≤ tl.length := by
      simpa using Nat.le_of_succ_le_succ (by simpa using h)
    have hget : members[a]? = some (members.getD a default) := by
      rw [List.getD_eq_getElem?_getD, List.getElem?_eq_getElem ha]
      rfl
    have hsp : specPairing (issue :: rest) members (a :: tl) =
        (issue, members.getD a default) :: specPairing rest members tl := by
      simp [specPairing]
    rw [hsp] at hall
    have hhd : ex issue (members.getD a default) = true :=
      hall _ (List.mem_cons_self _ _)
    have ih := executionRun_success ex rest members tl hlen htl
      (fun p hp => hall p (List.mem_cons_of_mem _ hp))
    rw [hsp]
    simp only [executionRun, hget, hhd, if_true, ih]

lemma executionRun_failure : ∀ (ex : GitlabIssue → GitlabProjectMember → Bool)
    (issues : List GitlabIssue) (members : List GitlabProjectMember) (asg : List Nat)
    (k : Nat),
    issues.length ≤ asg.length → (∀ a ∈ asg, a < members.length) →
    k < issues.length →
    (∀ p ∈ (specPairing issues members asg).take k, ex p.1 p.2 = true) →
    ex ((specPairing issues members asg).getD k default).1
        ((specPairing issues members asg).getD k default).2 = false →
    executionRun ex issues members asg =
      ⟨(specPairing issues members asg).take (k + 1),
        .failed (((specPairing issues members asg).getD k default).1)⟩
  | _, [], _, _, k, _, _, hk, _, _ => by simp at hk
  | _, _ :: _, _, [], _, h, _, _, _, _ => by simp at h
  | ex, issue :: rest, members, a :: tl, k, h, hel, hk, hbefore, hfail => by
    have ha : a < members.length := hel a (List.mem_cons_self a tl)
    have htl : ∀ x ∈ tl, x < members.length := fun x hx => hel x (List.mem_cons_of_mem a hx)
    have hlen : rest.length ≤ tl.length := by
      simpa using Nat.le_of_succ_le_succ (by simpa using h)
    have hget : members[a]? = some (members.getD a default) := by
      rw [List.getD_eq_getElem?_getD, List.getElem?_eq_getElem ha]
      rfl
    have hsp : specPairing (issue :: rest) members (a :: tl) =
        (issue, members.getD a default) :: specPairing rest members tl := by
      simp [specPairing]
    rw [hsp] at hbefore hfail ⊢
    match k with
    | 0 =>
      simp only [List.getD_cons_zero] at hfail ⊢
      rw [List.take_succ_cons, List.take_zero]
      simp [executionRun, hget, ← List.getD_eq_getElem?_getD, hfail]
    | k + 1 =>
      have hhd : ex issue (members.getD a default) = true := by
        refine hbefore (issue, members.getD a default) ?_
        rw [List.take_succ_cons]
        exact List.mem_cons_self _ _
      have hbefore' : ∀ p ∈ (specPairing rest members tl).take k, ex p.1 p.2 = true := by
        intro p hp
        refine hbefore p ?_
        rw [List.take_succ_cons]
        exact List.mem_cons_of_mem _ hp
      have hk' : k < rest.length := by simpa using Nat.lt_of_succ_lt_succ (by simpa using hk)
      have hfail' := hfail
      rw [List.getD_cons_succ] at hfail'
      have ih := executionRun_failure ex rest members tl k hlen htl hk' hbefore' hfail'
      simp only [executionRun, hget, ← List.getD_eq_getElem?_getD, hhd, if_true, ih,
        List.take_succ_cons, List.getD_cons_succ]

lemma executionRun_no_panic : ∀ (ex : GitlabIssue → GitlabProjectMember → Bool)
    (issues : List GitlabIssue) (members : List GitlabProjectMember) (asg : List Nat),
    issues.length ≤ asg.length → (∀ a ∈ asg, a < members.length) →
    (executionRun ex issues members asg).outcome ≠ RunOutcome.indexPanic
  | _, [], members, asg, _, _ => by simp [executionRun]
  | _, _ :: _, _, [], h, _ => by simp at h
  | ex, issue :: rest, members, a :: tl, h, hel => by
    have ha : a < members.length := hel a (List.mem_cons_self a tl)
    have htl : ∀ x ∈ tl, x < members.length := fun x hx => hel x (List.mem_cons_of_mem a hx)
    have hlen : rest.length ≤ tl.length := by
      simpa using Nat.le_of_succ_le_succ (by simpa using h)
    have hget : members[a]? = some (members.getD a default) := by
      rw [List.getD_eq_getElem?_getD, List.getElem?_eq_getElem ha]
      rfl
    have ih := executionRun_no_panic ex rest members tl hlen htl
    simp only [executionRun, hget, Option.getD_some]
    by_cases hex : ex issue (members[a]?.getD default) = true <;> simp [hex, ih]

lemma range_filter_single : ∀ (issues : List GitlabIssue) (s : Int) (x : GitlabIssue),
    (issues.map GitlabIssue.id).Nodup → x ∈ issues → x.id = s →
    List.filter (fun issue => decide (issue.id ≥ s) && decide (issue.id ≤ s)) issues = [x]
  | [], _, x, _, hx, _ => by cases hx
  | hd :: tl, s, x, hnd, hx, hid => by
    rw [List.map_cons, List.nodup_cons] at hnd
    obtain ⟨hni, hndtl⟩ := hnd
    have hpred : ∀ y : GitlabIssue,
        ((decide (y.id ≥ s) && decide (y.id ≤ s)) = true) ↔ y.id = s := by
      intro y
      simp
      omega
    rcases List.mem_cons.mp hx with rfl | hxtl
    · have hrest : List.filter
          (fun issue => decide (issue.id ≥ s) && decide (issue.id ≤ s)) tl = [] := by
        rw [List.filter_eq_nil_iff]
        intro a ha hpa
        have haid : a.id = x.id := by rw [(hpred a).mp hpa, ← hid]
        exact hni (haid ▸ List.mem_map_of_mem GitlabIssue.id ha)
      rw [List.filter_cons, if_pos ((hpred x).mpr hid), hrest]
    · have hhd : ¬(decide (hd.id ≥ s) && decide (hd.id ≤ s)) = true := by
        rw [hpred hd]
        intro h
        apply hni
        rw [h, ← hid]
        exact List.mem_map_of_mem GitlabIssue.id hxtl
      rw [List.filter_cons, if_neg hhd]
      exact range_filter_single tl s x hndtl hxtl hid

/-! ## Claim theorems -/

/-- C1 (counterexample): the balance invariant as stated fails on the code.
With 5 issues and 3 members (q = 1, r = 2), the remainder loop can draw
member index 0 twice (the draws are independent, with replacement), after
which member 0 receives 3 issues: neither q nor q+1, and the spread of the
counts is 2. -/
theorem balance_invariant_counterexample :
    ValidDraws cexMembers.length cexIssues.length cexDraws ∧
    cexVec.Perm (balancerPre cexIssues cexMembers cexDraws) ∧
    cexIssues.length / cexMembers.length = 1 ∧
    cexIssues.length % cexMembers.length = 2 ∧
    cexVec.count 0 = 3 ∧
    ¬(cexVec.count 0 = 1 ∨ cexVec.count 0 = 2) ∧
    cexVec.count 0 - cexVec.count 1 = 2 ∧
    balancerAssign cexIssues cexMembers cexVec = .ok
      [(exIssue 1 none, exMember 1), (exIssue 2 none, exMember 2),
        (exIssue 3 none, exMember 3), (exIssue 4 none, exMember 1),
        (exIssue 5 none, exMember 1)] := by
  decide

/-- C1 (amended): when the r remainder draws are pairwise distinct, every
member receives q or q+1 issues, exactly r member indices receive q+1, the
per-member counts differ by at most 1, and the computed pairs assign issue i
to the member at index shuffled[i]; without distinctness only the weaker
guarantee holds (a repeated draw can push one member above q+1, as the
counterexample shows). -/
theorem balance_invariant_amended (issues : List GitlabIssue)
    (members : List GitlabProjectMember) (draws shuffled : List Nat)
    (hm : 1 ≤ members.length)
    (hd : ValidDraws members.length issues.length draws)
    (hnd : draws.Nodup)
    (hp : shuffled.Perm (balancerPre issues members draws)) :
    (∀ j < members.length,
        shuffled.count j = issues.length / members.length ∨
          shuffled.count j = issues.length / members.length + 1) ∧
    ((List.range members.length).filter
        (fun j => decide (shuffled.count j = issues.length / members.length + 1))).length =
      issues.length % members.length ∧
    (∀ j1 < members.length, ∀ j2 < members.length,
        shuffled.count j1 ≤ shuffled.count j2 + 1) ∧
    ∃ ps, balancerAssign issues members shuffled = .ok ps ∧
      ps.map Prod.snd = shuffled.map (fun j => members.getD j default) := by
  have hkey : ∀ j, j < members.length →
      shuffled.count j = issues.length / members.length + draws.count j := by
    intro j hj
    rw [shuffled_count issues members draws shuffled hp j, if_pos hj]
  have hcle : ∀ j, draws.count j ≤ 1 := fun j => List.nodup_iff_count_le_one.mp hnd j
  have hmain : ∀ j, j < members.length →
      shuffled.count j = issues.length / members.length ∨
        shuffled.count j = issues.length / members.length + 1 := by
    intro j hj
    have h1 := hkey j hj
    have h2 := hcle j
    omega
  refine ⟨hmain, ?_, ?_, ?_⟩
  · have hcongr : ∀ j ∈ List.range members.length,
        decide (shuffled.count j = issues.length / members.length + 1) =
          decide (j ∈ draws) := by
      intro j hj
      have hj' : j < members.length := List.mem_range.mp hj
      by_cases hmem : j ∈ draws
      · have h1 : draws.count j = 1 := List.count_eq_one_of_mem hnd hmem
        simp [hkey j hj', h1, hmem]
      · have h0 : draws.count j = 0 := List.count_eq_zero.mpr hmem
        have hne : ¬(issues.length / members.length + 0 =
            issues.length / members.length + 1) := by omega
        simp [hkey j hj', h0, hmem, hne]
    rw [List.filter_congr hcongr, extra_members_count members.length draws hnd hd.2, hd.1]
  · intro j1 hj1 j2 hj2
    rcases hmain j1 hj1 with h1 | h1 <;> rcases hmain j2 hj2 with h2 | h2 <;> omega
  · obtain ⟨hlen, hmem, hok⟩ := balancer_ok issues members draws shuffled hm hd hp
    exact ⟨_, hok, specPairing_map_snd issues members shuffled hlen.symm⟩

/-- Witness for C1 (amended) at 5 issues, 3 members, distinct draws [0, 1]
and the identity shuffle: member index 0 receives q or q+1 issues. -/
theorem balance_invariant_amended_witness :
    wVec.count 0 = cexIssues.length / cexMembers.length ∨
      wVec.count 0 = cexIssues.length / cexMembers.length + 1 :=
  (balance_invariant_amended cexIssues cexMembers wDraws wVec (by decide) (by decide)
    (by decide) (by decide)).1 0 (by decide)

/-- C2: with at least one selected issue and zero selected members the
balancing step reaches the division selected_issues.len() /
selected_members.len() unguarded and panics with a division by zero; there is
no reported precondition failure before it. -/
theorem zero_members_division_panics :
    balancerRun [exIssue 1 none] [] [5, 7, 11] = BalanceOutcome.divByZeroPanic ∧
    balancerAssign [exIssue 1 none] [] [0] = BalanceOutcome.divByZeroPanic := by
  decide

/-- C3: for any issue count and at least one member, for every outcome of the
draws and of the shuffle, the balancer produces exactly one pair per selected
issue, the keys being precisely the selected issues in order; zero issues
yield the empty assignment without error. -/
theorem assign_covers_each_issue_exactly_once (issues : List GitlabIssue)
    (members : List GitlabProjectMember) (draws shuffled : List Nat)
    (hm : 1 ≤ members.length)
    (hd : ValidDraws members.length issues.length draws)
    (hp : shuffled.Perm (balancerPre issues members draws)) :
    ∃ ps, balancerAssign issues members shuffled = .ok ps ∧
      ps.length = issues.length ∧
      ps.map Prod.fst = issues ∧
      (issues = [] → ps = []) := by
  obtain ⟨hlen, hmem, hok⟩ := balancer_ok issues members draws shuffled hm hd hp
  refine ⟨_, hok, specPairing_length issues members shuffled (le_of_eq hlen.symm),
    specPairing_map_fst issues members shuffled (le_of_eq hlen.symm), ?_⟩
  rintro rfl
  simp [specPairing]

/-- Witness for C3 at 0 issues and 2 members: the empty assignment, no
error. -/
theorem assign_covers_each_issue_exactly_once_witness :
    ∃ ps, balancerAssign [] [exMember 1, exMember 2] [] = .ok ps ∧
      ps.length = ([] : List GitlabIssue).length ∧
      ps.map Prod.fst = ([] : List GitlabIssue) ∧
      (([] : List GitlabIssue) = [] → ps = []) :=
  assign_covers_each_issue_exactly_once [] [exMember 1, exMember 2] [] []
    (by decide) (by decide) (by decide)

/-- C4: the source balancer follows exactly the documented algorithm: its
pre-shuffle vector is each member index repeated q times with the r drawn
indices appended, and after any shuffle of that vector it pairs vector[i]
with issues[i]. -/
theorem balancer_refines_spec_algorithm (issues : List GitlabIssue)
    (members : List GitlabProjectMember) (draws shuffled : List Nat)
    (hm : 1 ≤ members.length)
    (hd : ValidDraws members.length issues.length draws)
    (hp : shuffled.Perm (balancerPre issues members draws)) :
    balancerPre issues members draws =
      specAssignmentVector issues.length members.length draws ∧
    (specAssignmentVector issues.length members.length draws).length = issues.length ∧
    balancerAssign issues members shuffled = .ok (specPairing issues members shuffled) := by
  have h1 : balancerPre issues members draws =
      specAssignmentVector issues.length members.length draws := by
    rw [balancerPre, specAssignmentVector, List.flatMap_def]
  refine ⟨h1, ?_, (balancer_ok issues members draws shuffled hm hd hp).2.2⟩
  rw [← h1]
  exact balancerPre_length issues members draws hd

/-- Witness for C4 at 5 issues, 3 members, draws [0, 1], identity shuffle. -/
theorem balancer_refines_spec_algorithm_witness :
    balancerPre cexIssues cexMembers wDraws =
      specAssignmentVector cexIssues.length cexMembers.length wDraws ∧
    balancerAssign cexIssues cexMembers wVec = .ok (specPairing cexIssues cexMembers wVec) :=
  ⟨(balancer_refines_spec_algorithm cexIssues cexMembers wDraws wVec (by decide) (by decide)
      (by decide)).1,
    (balancer_refines_spec_algorithm cexIssues cexMembers wDraws wVec (by decide) (by decide)
      (by decide)).2.2⟩

/-- C9: the balancer is a pure function of the selected issues, the selected
members and the random source: two runs from the same seeded random state
produce the identical assignment. -/
theorem balancer_deterministic (issues : List GitlabIssue)
    (members : List GitlabProjectMember) (s1 s2 : List Nat) (h : s1 = s2) :
    balancerRun issues members s1 = balancerRun issues members s2 := by
  rw [h]

/-- Witness for C9 at a concrete seeded random state. -/
theorem balancer_deterministic_witness :
    ([3, 1, 4] : List Nat) = [3, 1, 4] ∧
    balancerRun cexIssues cexMembers [3, 1, 4] =
      balancerRun cexIssues cexMembers [3, 1, 4] :=
  ⟨rfl, balancer_deterministic cexIssues cexMembers [3, 1, 4] [3, 1, 4] rfl⟩

/-- C10: for every outcome of the draws and the shuffle, every entry of the
assignment vector is a member index below the member count and the vector is
as long as the issue list, so both the preview loop and the execution loop
index selected_members in bounds, and the execution loop attempts exactly the
previewed pairs. -/
theorem assignment_indexing_safe (issues : List GitlabIssue)
    (members : List GitlabProjectMember) (draws shuffled : List Nat)
    (hm : 1 ≤ members.length)
    (hd : ValidDraws members.length issues.length draws)
    (hp : shuffled.Perm (balancerPre issues members draws)) :
    (∀ j ∈ shuffled, j < members.length) ∧
    shuffled.length = issues.length ∧
    ∃ ps, previewPairs issues members shuffled = some ps ∧
      (∀ ex, (executionRun ex issues members shuffled).outcome ≠ RunOutcome.indexPanic) ∧
      (executionRun (fun _ _ => true) issues members shuffled).calls = ps := by
  obtain ⟨hlen, hmem, _⟩ := balancer_ok issues members draws shuffled hm hd hp
  refine ⟨hmem, hlen, specPairing issues members shuffled,
    previewPairs_eq_specPairing issues members shuffled (le_of_eq hlen.symm) hmem,
    fun ex => executionRun_no_panic ex issues members shuffled (le_of_eq hlen.symm) hmem, ?_⟩
  rw [executionRun_success (fun _ _ => true) issues members shuffled (le_of_eq hlen.symm) hmem
    (fun _ _ => rfl)]

/-- Witness for C10 at 5 issues, 3 members, draws [0, 1], identity shuffle. -/
theorem assignment_indexing_safe_witness :
    wVec.length = cexIssues.length :=
  (assignment_indexing_safe cexIssues cexMembers wDraws wVec (by decide) (by decide)
    (by decide)).2.1

/-- C7: the execution loop walks the pairs in preview order; if every assign
call succeeds it performs them all and reports success, and on the first
failed call it stops immediately (the attempted calls are exactly the pairs
up to and including the failing one, so the earlier pairs stay applied and no
later call is made) and reports the failed issue. -/
theorem executor_stops_at_first_failure (ex : GitlabIssue → GitlabProjectMember → Bool)
    (issues : List GitlabIssue) (members : List GitlabProjectMember) (asg : List Nat)
    (hlen : issues.length ≤ asg.length)
    (hel : ∀ a ∈ asg, a < members.length) :
    ((∀ p ∈ specPairing issues members asg, ex p.1 p.2 = true) →
        executionRun ex issues members asg =
          ⟨specPairing issues members asg, RunOutcome.succeeded⟩) ∧
    (∀ k, k < issues.length →
        (∀ p ∈ (specPairing issues members asg).take k, ex p.1 p.2 = true) →
        ex ((specPairing issues members asg).getD k default).1
            ((specPairing issues members asg).getD k default).2 = false →
        executionRun ex issues members asg =
          ⟨(specPairing issues members asg).take (k + 1),
            RunOutcome.failed (((specPairing issues members asg).getD k default).1)⟩) :=
  ⟨executionRun_success ex issues members asg hlen hel,
    fun k hk => executionRun_failure ex issues members asg k hlen hel hk⟩

/-- Witness for C7: with 5 previewed pairs and an assign collaborator that
fails on the 3rd call, the loop attempts exactly the first three pairs and
reports the identity of the 3rd issue. -/
theorem executor_stops_at_first_failure_witness :
    executionRun cexExec cexIssues cexMembers cexVec =
      ⟨[(exIssue 1 none, exMember 1), (exIssue 2 none, exMember 2),
        (exIssue 3 none, exMember 3)], RunOutcome.failed (exIssue 3 none)⟩ := by
  have h := (executor_stops_at_first_failure cexExec cexIssues cexMembers cexVec
    (by decide) (by decide)).2 2 (by decide) (by decide) (by decide)
  rw [h]
  decide

/-- C5: the range strategy selects exactly the issues whose id lies between
the boundaries, inclusive on both ends; reversed boundaries yield the empty
selection as a defined outcome, and equal boundaries select exactly the
unique issue bearing that id when it exists. -/
theorem range_select_characterization (issues : List GitlabIssue) (s e : Int) :
    (∀ x, x ∈ rangeSelect issues s e ↔ x ∈ issues ∧ s ≤ x.id ∧ x.id ≤ e) ∧
    (e < s → rangeSelect issues s e = []) ∧
    (∀ x, (issues.map GitlabIssue.id).Nodup → x ∈ issues → x.id = s → s = e →
        rangeSelect issues s e = [x]) := by
  refine ⟨?_, ?_, ?_⟩
  · intro x
    simp [rangeSelect, List.mem_filter, and_assoc]
  · intro hlt
    rw [rangeSelect, List.filter_eq_nil_iff]
    intro x hx
    simp
    omega
  · intro x hnd hx hid heq
    rw [rangeSelect, ← heq]
    exact range_filter_single issues s x hnd hx hid

/-- Witness for C5: equal boundaries 2, 2 over issues with ids 1..5 select
exactly the issue with id 2. -/
theorem range_select_characterization_witness :
    rangeSelect cexIssues 2 2 = [exIssue 2 none] :=
  (range_select_characterization cexIssues 2 2).2.2 (exIssue 2 none)
    (by decide) (by decide) (by decide) rfl

/-- C6: the milestone strategy never selects an issue without a milestone,
and every selected issue's milestone is identity-equal to one of the picked
milestones. -/
theorem milestone_select_guarantees (issues : List GitlabIssue)
    (picked : List GitlabMilestone) :
    (∀ x ∈ milestoneSelect issues picked, x.milestone ≠ none) ∧
    (∀ x ∈ milestoneSelect issues picked,
        ∃ ms, x.milestone = some ms ∧ ∃ p ∈ picked, p.id = ms.id) := by
  constructor <;> intro x hx <;> rw [milestoneSelect, List.mem_filter] at hx <;>
    obtain ⟨-, hpx⟩ := hx
  · cases hms : x.milestone with
    | none =>
      rw [hms] at hpx
      simp at hpx
    | some ms => simp [hms]
  · cases hms : x.milestone with
    | none =>
      rw [hms] at hpx
      simp at hpx
    | some ms =>
      rw [hms] at hpx
      simp only [milestonesContains, List.any_eq_true] at hpx
      obtain ⟨p, hp, heq⟩ := hpx
      refine ⟨ms, rfl, p, hp, ?_⟩
      simpa [milestoneEq] using heq

/-- Witness for C6: an issue carrying milestone id 7 is selected when a
milestone with id 7 (but a different title) is picked, and its milestone is
identity-equal to the picked one. -/
theorem milestone_select_guarantees_witness :
    ∃ ms, wIssueM.milestone = some ms ∧ ∃ p ∈ [wmB], p.id = ms.id :=
  (milestone_select_guarantees [wIssueM, wIssueN] [wmB]).2 wIssueM (by decide)

/-- C8: milestone equality is by identity only: two milestones compare equal
exactly when their id fields agree, whatever the other fields hold, and both
the contains test used for deduplication and the milestone-strategy filter
respect this identity. -/
theorem milestone_equality_by_identity (a b : GitlabMilestone) :
    (milestoneEq a b = true ↔ a.id = b.id) ∧
    (∀ l, a.id = b.id → milestonesContains l a = milestonesContains l b) ∧
    (a.id = b.id → ∀ issues, milestoneSelect issues [a] = milestoneSelect issues [b]) := by
  refine ⟨by simp [milestoneEq], ?_, ?_⟩
  · intro l hid
    simp [milestonesContains, milestoneEq, hid]
  · intro hid issues
    rw [milestoneSelect, milestoneSelect]
    apply List.filter_congr
    intro x hx
    cases hms : x.milestone <;> simp [hms, milestonesContains, milestoneEq, hid]

/-- Witness for C8: the two fixture milestones share id 7 but differ in
title, and still compare equal. -/
theorem milestone_equality_by_identity_witness :
    milestoneEq wmA wmB = true :=
  (milestone_equality_by_identity wmA wmB).1.mpr (by decide)

end GitlabRoulette
